import Mathlib

/-
Shallow embedding of the core of the vscode-antigravity-cockpit repository:
the reset-trigger edge detector of the Trigger Service
(src/src/engine/strategies.ts), the retry/fallback and backoff logic of the
Cloud Code client (src/src/shared/cloudcode_client.ts), its streaming
response parser, the base-URL routing (src/unnamed/part_000) and the binary
state decoder (src/unnamed/part_002).

Modelling conventions: JS Map values become association lists keyed by
String; JS numbers carrying wall-clock times or quota counts become Int
(so that subtraction behaves like the source); the backoff delay, which
mixes integers with a real-valued jitter from Math.random, becomes a
rational number; byte buffers become lists of Nat below 256; JSON.parse and
the HTTP transport, which are host primitives outside the repository, are
abstracted as function parameters.  The source's JS bit operators coerce
their operands to signed 32-bit integers: the decoder's field-number
shift tag >> 3 is therefore modelled as an arithmetic shift of
ToInt32(tag), while the mask tag & 7 only keeps the low three bits, which
the coercion never changes, so it stays a Nat operation.  readVarint's
accumulation is exact JS float arithmetic for values below 2^53 and is
modelled with exact naturals.
-/

/-- Lookup in an association list, mirroring JS Map.get (absent key gives none). -/
def getKV {α : Type} (m : List (String × α)) (k : String) : Option α :=
  (m.find? (fun p => p.1 == k)).map Prod.snd

/-- Update in an association list, mirroring JS Map.set. -/
def setKV {α : Type} (m : List (String × α)) (k : String) (v : α) : List (String × α) :=
  (k, v) :: m.filter (fun p => p.1 != k)

/-- RESET_TRIGGER_COOLDOWN_MS from src/src/engine/strategies.ts. -/
def RESET_TRIGGER_COOLDOWN_MS : Int := 10 * 60 * 1000

/-- The three per-model watermark maps of TriggerService
(src/src/engine/strategies.ts): lastResetTriggerTimestamps,
lastResetTriggerAt and lastResetRemaining. -/
structure TriggerState where
  lastResetTriggerTimestamps : List (String × String)
  lastResetTriggerAt : List (String × Int)
  lastResetRemaining : List (String × Int)
deriving DecidableEq

/-- The state of a freshly constructed TriggerService. -/
def emptyTriggerState : TriggerState := ⟨[], [], []⟩

/-- The update this.lastResetRemaining.set(modelId, remaining) performed on
every path of shouldTriggerOnReset. -/
def setLastRemaining (st : TriggerState) (modelId : String) (remaining : Int) : TriggerState :=
  { st with lastResetRemaining := setKV st.lastResetRemaining modelId remaining }

/-- TriggerService.shouldTriggerOnReset from src/src/engine/strategies.ts.
Date.now() is passed explicitly as the argument now. -/
def shouldTriggerOnReset (st : TriggerState) (now : Int) (modelId resetAt : String)
    (remaining limit : Int) : Bool × TriggerState :=
  let lastRemaining := getKV st.lastResetRemaining modelId
  let isFull : Bool := decide (limit ≤ remaining)
  if !isFull then
    (false, setLastRemaining st modelId remaining)
  else
    let lastTriggeredResetAt := getKV st.lastResetTriggerTimestamps modelId
    let lastTriggerAt := getKV st.lastResetTriggerAt modelId
    let cooldownActive : Bool :=
      match lastTriggerAt with
      | some t => decide (now - t < RESET_TRIGGER_COOLDOWN_MS)
      | none => false
    if cooldownActive then
      (false, setLastRemaining st modelId remaining)
    else
      match lastRemaining with
      | none =>
        if lastTriggeredResetAt == some resetAt then
          (false, setLastRemaining st modelId remaining)
        else
          (true, setLastRemaining st modelId remaining)
      | some lastRem =>
        let wasBelowLimit : Bool := decide (lastRem < limit)
        let isRisingEdge := wasBelowLimit && isFull
        if !isRisingEdge then
          (false, setLastRemaining st modelId remaining)
        else if lastTriggeredResetAt == some resetAt then
          (false, setLastRemaining st modelId remaining)
        else
          (true, setLastRemaining st modelId remaining)

/-- TriggerService.markResetTriggered from src/src/engine/strategies.ts;
it immediately persists both maps it writes. -/
def markResetTriggered (st : TriggerState) (now : Int) (modelId resetAt : String) : TriggerState :=
  { st with
    lastResetTriggerTimestamps := setKV st.lastResetTriggerTimestamps modelId resetAt,
    lastResetTriggerAt := setKV st.lastResetTriggerAt modelId now }

/-- One quota observation handed to shouldTriggerOnReset, together with the
Date.now() value at the time of the call. -/
structure TriggerObs where
  now : Int
  model : String
  resetAt : String
  remaining : Int
  limit : Int
deriving DecidableEq

/-- Run a sequence of observations through shouldTriggerOnReset, invoking
markResetTriggered right after every call that returns true (the discipline
of the quota-polling caller). -/
def runMarked (st : TriggerState) : List TriggerObs → List (TriggerObs × Bool)
  | [] => []
  | o :: rest =>
    let r := shouldTriggerOnReset st o.now o.model o.resetAt o.remaining o.limit
    let st2 := if r.1 then markResetTriggered r.2 o.now o.model o.resetAt else r.2
    (o, r.1) :: runMarked st2 rest

/-- The boolean results of runMarked, in call order. -/
def runMarkedResults (st : TriggerState) (obs : List TriggerObs) : List Bool :=
  (runMarked st obs).map Prod.snd

/-- The (time, resetAt) pairs of the calls that returned true for a given
model, in call order. -/
def resetFires (m : String) (trace : List (TriggerObs × Bool)) : List (Int × String) :=
  trace.filterMap (fun ob =>
    if ob.2 && (ob.1.model == m) then some (ob.1.now, ob.1.resetAt) else none)

/-- The storage slots the TriggerService writes for the reset-trigger
watermarks: the keys lastResetTriggerTimestamps and lastResetTriggerAt of
credentialStorage.  The source defines no storage slot for
lastResetRemaining. -/
structure TriggerStorage where
  resetTriggerTimestamps : List (String × String)
  resetTriggerAt : List (String × Int)
deriving DecidableEq

/-- Contents of the two storage slots after saveResetTriggerTimestamps and
saveResetTriggerAt have both run on a state. -/
def persistedTriggerStorage (st : TriggerState) : TriggerStorage :=
  ⟨st.lastResetTriggerTimestamps, st.lastResetTriggerAt⟩

/-- TriggerService.initialize: loadResetTriggerTimestamps and
loadResetTriggerAt restore the two persisted maps; lastResetRemaining has
no load (and no save), so it starts empty. -/
def initializeTriggerService (s : TriggerStorage) : TriggerState :=
  ⟨s.resetTriggerTimestamps, s.resetTriggerAt, []⟩

/-- Constant from src/unnamed/part_000. -/
def CLOUDCODE_URL_AUTOPUSH_SANDBOX : String := "https://autopush-cloudcode-pa.sandbox.googleapis.com"

/-- Constant from src/unnamed/part_000. -/
def CLOUDCODE_URL_DAILY : String := "https://daily-cloudcode-pa.googleapis.com"

/-- Constant from src/unnamed/part_000. -/
def CLOUDCODE_URL_PROD : String := "https://cloudcode-pa.googleapis.com"

/-- CloudCodeRouteOptions from src/unnamed/part_000; every field is optional.
The extra project-id fields of CloudCodeRequestRouteOptions play no role in
base-URL resolution and are omitted. -/
structure CloudCodeRouteOptions where
  isGcpTos : Option Bool
  isGoogleInternal : Option Bool
  isInsiders : Option Bool
  isDev : Option Bool
  cloudCodeUrlOverride : Option String
deriving DecidableEq

/-- JS truthiness of an optional boolean. -/
def truthyBool : Option Bool → Bool
  | some b => b
  | none => false

/-- JS truthiness of an optional string (the empty string is falsy). -/
def truthyStr : Option String → Bool
  | some s => !s.isEmpty
  | none => false

/-- resolveCloudCodeBaseUrl from src/unnamed/part_000. -/
def resolveCloudCodeBaseUrl : Option CloudCodeRouteOptions → String
  | none => CLOUDCODE_URL_DAILY
  | some r =>
    if truthyStr r.cloudCodeUrlOverride then r.cloudCodeUrlOverride.getD CLOUDCODE_URL_DAILY
    else if truthyBool r.isGcpTos then CLOUDCODE_URL_PROD
    else if truthyBool r.isGoogleInternal && (truthyBool r.isInsiders || truthyBool r.isDev) then
      CLOUDCODE_URL_AUTOPUSH_SANDBOX
    else CLOUDCODE_URL_DAILY

/-- CloudCodeRequestOptions from src/src/shared/cloudcode_client.ts. -/
structure CloudCodeRequestOptions where
  logLabel : Option String
  timeoutMs : Option Nat
  maxAttempts : Option Nat
  route : Option CloudCodeRouteOptions
deriving DecidableEq

/-- CloudCodeClient.getRequestBaseUrls: a one-element list holding the
resolved base URL. -/
def getRequestBaseUrls (options : Option CloudCodeRequestOptions) : List String :=
  [resolveCloudCodeBaseUrl (options.bind CloudCodeRequestOptions.route)]

/-- BACKOFF_BASE_MS from src/src/shared/cloudcode_client.ts. -/
def BACKOFF_BASE_MS : ℚ := 500

/-- BACKOFF_MAX_MS from src/src/shared/cloudcode_client.ts. -/
def BACKOFF_MAX_MS : ℚ := 4000

/-- CloudCodeClient.getBackoffDelay; Math.random()*100 is passed explicitly
as the argument jitter. -/
def getBackoffDelay (attempt : Nat) (jitter : ℚ) : ℚ :=
  min (BACKOFF_BASE_MS * (2 : ℚ) ^ ((attempt : ℤ) - 2) + jitter) BACKOFF_MAX_MS

/-- Outcome of one call to CloudCodeClient.requestOnce: a value, a thrown
CloudCodeAuthError, or a thrown CloudCodeRequestError with status and
retryable flag.  requestOnce converts every other exception into one of
these, so no fourth case exists. -/
inductive CallOutcome (T : Type) where
  | success : T → CallOutcome T
  | authError : CallOutcome T
  | requestError : (status : Nat) → (retryable : Bool) → CallOutcome T
deriving DecidableEq

/-- Result of CloudCodeClient.requestWithRetry: a value, a rethrown error,
or the generic failure raised when no error was remembered. -/
inductive RetryResult (T : Type) where
  | ok : T → RetryResult T
  | authError : RetryResult T
  | requestError : (status : Nat) → (retryable : Bool) → RetryResult T
  | genericFailure : RetryResult T
deriving DecidableEq

/-- The inner for-baseUrl loop of requestWithRetry.  The oracle maps the
index of an HTTP call to its outcome; calls counts the HTTP calls made so
far.  Returns (early result if the loop returned or threw, updated call
count, remembered last error). -/
def endpointLoop {T : Type} (oracle : Nat → CallOutcome T) :
    List String → Nat → Option (Nat × Bool) →
    Option (RetryResult T) × Nat × Option (Nat × Bool)
  | [], calls, lastErr => (none, calls, lastErr)
  | _baseUrl :: rest, calls, lastErr =>
    match oracle calls with
    | .success v => (some (.ok v), calls + 1, lastErr)
    | .authError => (some .authError, calls + 1, lastErr)
    | .requestError s r =>
      if r then endpointLoop oracle rest (calls + 1) (some (s, r))
      else (some (.requestError s r), calls + 1, some (s, r))

/-- The throw after the attempt loop: the last remembered error, or the
generic CloudCodeRequestError when none was captured. -/
def throwLastError {T : Type} : Option (Nat × Bool) → RetryResult T
  | some (s, r) => .requestError s r
  | none => .genericFailure

/-- The outer attempt loop of requestWithRetry.  remaining counts the
attempts still allowed, attempt is the 1-based number of the next attempt;
the returned list collects the attempt numbers that were preceded by a
backoff sleep. -/
def retryRounds {T : Type} (oracle : Nat → CallOutcome T) (baseUrls : List String) :
    Nat → Nat → Nat → Option (Nat × Bool) → List Nat → RetryResult T × Nat × List Nat
  | 0, _attempt, calls, lastErr, delays => (throwLastError lastErr, calls, delays)
  | remaining + 1, attempt, calls, lastErr, delays =>
    let delays2 := if 1 < attempt then delays ++ [attempt] else delays
    match endpointLoop oracle baseUrls calls lastErr with
    | (some res, calls2, _) => (res, calls2, delays2)
    | (none, calls2, lastErr2) =>
      retryRounds oracle baseUrls remaining (attempt + 1) calls2 lastErr2 delays2

/-- CloudCodeClient.requestWithRetry over an abstract HTTP oracle.  Result:
(outcome, total number of HTTP calls, attempts preceded by a delay). -/
def requestWithRetry {T : Type} (oracle : Nat → CallOutcome T) (baseUrls : List String)
    (maxAttempts : Nat) : RetryResult T × Nat × List Nat :=
  retryRounds oracle baseUrls maxAttempts 1 0 none []

/-- JS String.prototype.includes for char lists. -/
def listContainsSeq (needle : List Char) : List Char → Bool
  | [] => List.isPrefixOf needle []
  | c :: rest => List.isPrefixOf needle (c :: rest) || listContainsSeq needle rest

/-- CloudCodeClient.isInvalidGrant: text.toLowerCase().includes('invalid_grant'). -/
def isInvalidGrant (text : List Char) : Bool :=
  listContainsSeq ("invalid_grant".toList) (text.map Char.toLower)

/-- The classification CloudCodeClient.requestOnce applies to an HTTP
response: status, body text, the result of JSON.parse on the body (none if
parsing threw), and the empty object returned for an empty body. -/
def requestOnceClassify {T : Type} (status : Nat) (text : List Char) (parsed : Option T)
    (emptyObj : T) : CallOutcome T :=
  if status == 401 || isInvalidGrant text then .authError
  else if status == 403 then .requestError 403 false
  else if !(decide (200 ≤ status) && decide (status < 300)) then
    .requestError status (status == 429 || decide (500 ≤ status))
  else if text.isEmpty then .success emptyObj
  else
    match parsed with
    | some v => .success v
    | none => .requestError status true

/-- JS String.prototype.trimEnd for char lists. -/
def trimEndC (s : List Char) : List Char :=
  (s.reverse.dropWhile Char.isWhitespace).reverse

/-- JS String.prototype.trim for char lists. -/
def trimC (s : List Char) : List Char :=
  trimEndC (s.dropWhile Char.isWhitespace)

/-- The per-line filter of CloudCodeClient.requestStreamOnce: trimEnd the
raw line, trim it, skip blank lines, skip lines without the data: prefix,
slice off the prefix, trim, skip the literal DONE marker; otherwise the
payload string is an event. -/
def ssePayloadOf (rawLine : List Char) : Option (List Char) :=
  let line := trimEndC rawLine
  let trimmed := trimC line
  if trimmed.isEmpty then none
  else if !(List.isPrefixOf ("data:".toList) trimmed) then none
  else
    let payload := trimC (trimmed.drop 5)
    if payload == "[DONE]".toList then none
    else some payload

/-- The accumulator of the stream-reading loop: gotEvent, lastData and the
collected payloads. -/
structure SSEAcc (T : Type) where
  gotEvent : Bool
  lastData : Option T
  payloads : List (List Char)

/-- Processing of one complete line inside requestStreamOnce: an event sets
gotEvent, appends the payload and replaces lastData when JSON.parse
succeeds (a parse failure keeps the previous lastData). -/
def handleSSELine {T : Type} (parse : List Char → Option T) (acc : SSEAcc T)
    (rawLine : List Char) : SSEAcc T :=
  match ssePayloadOf rawLine with
  | none => acc
  | some payload =>
    let lastData := match parse payload with
      | some v => some v
      | none => acc.lastData
    ⟨true, lastData, acc.payloads ++ [payload]⟩

/-- Split a buffer at newline characters: the completed lines and the
leftover tail without a terminating newline, as in the inner while loop of
requestStreamOnce.  cur holds the reversed chars of the line in progress. -/
def extractLinesGo (cur : List Char) : List Char → List (List Char) × List Char
  | [] => ([], cur.reverse)
  | c :: cs =>
    if c == '\n' then
      let r := extractLinesGo [] cs
      (cur.reverse :: r.1, r.2)
    else extractLinesGo (c :: cur) cs

/-- Complete lines and leftover of a buffer. -/
def extractLines (buf : List Char) : List (List Char) × List Char :=
  extractLinesGo [] buf

/-- The chunk-reading loop of requestStreamOnce: every decoded chunk is
appended to the carry buffer and the completed lines are split off.  The
leftover after the last chunk is never processed, as in the source. -/
def feedChunks (chunks : List (List Char)) : List (List Char) × List Char :=
  chunks.foldl
    (fun st chunk =>
      let r := extractLines (st.2 ++ chunk)
      (st.1 ++ r.1, r.2))
    ([], [])

/-- Concatenation of all chunks of a stream. -/
def joinChunks (chunks : List (List Char)) : List Char := chunks.flatten

/-- Declarative description of the event payloads of a line list. -/
def dataPayloads (lines : List (List Char)) : List (List Char) :=
  lines.filterMap ssePayloadOf

/-- The lastData value after processing a payload list from a given start:
the last payload that parses successfully wins. -/
def lastParsedFrom {T : Type} (parse : List Char → Option T) (init : Option T)
    (payloads : List (List Char)) : Option T :=
  payloads.foldl
    (fun acc p => match parse p with
      | some v => some v
      | none => acc)
    init

/-- How the read loop of requestStreamOnce ended: normally, by an
AbortError from the timeout, or by any other read error. -/
inductive ReadEnd where
  | done : ReadEnd
  | aborted : ReadEnd
  | failed : ReadEnd
deriving DecidableEq

/-- Outcome of the stream-body phase of requestStreamOnce: a returned
response (lastData and the collected payloads) or a thrown
CloudCodeRequestError (message, retryable). -/
inductive StreamOutcome (T : Type) where
  | ok : Option T → List (List Char) → StreamOutcome T
  | reqError : String → Bool → StreamOutcome T
deriving DecidableEq

/-- The stream-reading phase of CloudCodeClient.requestStreamOnce, after a
2xx response was obtained: chunks are the successfully read chunks, ending
says how the read loop stopped. -/
def requestStreamBody {T : Type} (parse : List Char → Option T)
    (chunks : List (List Char)) (ending : ReadEnd) : StreamOutcome T :=
  let lines := (feedChunks chunks).1
  let acc := lines.foldl (handleSSELine parse) ⟨false, none, []⟩
  match ending with
  | .failed => .reqError "Cloud Code stream read error" true
  | .aborted =>
    if acc.gotEvent then
      if !acc.gotEvent then .reqError "Cloud Code stream received no data" true
      else .ok acc.lastData acc.payloads
    else .reqError "Cloud Code stream read error" true
  | .done =>
    if !acc.gotEvent then .reqError "Cloud Code stream received no data" true
    else .ok acc.lastData acc.payloads

/-- Errors of the binary state decoder in src/unnamed/part_002: the
Incomplete-varint throw of readVarint and the Unknown-wire-type throw of
skipField. -/
inductive DecodeErr where
  | incompleteVarint : DecodeErr
  | unknownWireType : Nat → DecodeErr
deriving DecidableEq

/-- The while loop of readVarint.  The fuel starts at the number of bytes
left, which bounds the iterations; fuel 0 coincides with the
position-past-end exit, which throws Incomplete varint. -/
def readVarintGo (data : List Nat) : Nat → Nat → Nat → Nat → Except DecodeErr (Nat × Nat)
  | 0, _pos, _result, _shift => .error .incompleteVarint
  | fuel + 1, pos, result, shift =>
    match data[pos]? with
    | none => .error .incompleteVarint
    | some byte =>
      let result2 := result + (byte &&& 0x7f) * 2 ^ shift
      if (byte &&& 0x80) == 0 then .ok (result2, pos + 1)
      else readVarintGo data fuel (pos + 1) result2 (shift + 7)

/-- readVarint from src/unnamed/part_002. -/
def readVarint (data : List Nat) (offset : Nat) : Except DecodeErr (Nat × Nat) :=
  readVarintGo data (data.length - offset) offset 0 0

/-- skipField from src/unnamed/part_002. -/
def skipField (data : List Nat) (offset wireType : Nat) : Except DecodeErr Nat :=
  if wireType == 0 then
    match readVarint data offset with
    | .ok r => .ok r.2
    | .error e => .error e
  else if wireType == 1 then .ok (offset + 8)
  else if wireType == 2 then
    match readVarint data offset with
    | .ok r => .ok (r.2 + r.1)
    | .error e => .error e
  else if wireType == 5 then .ok (offset + 4)
  else .error (.unknownWireType wireType)

/-- ECMAScript ToInt32: reduce modulo 2^32 and reinterpret as a signed
32-bit value.  The source's tag >> 3 coerces the tag this way before the
(arithmetic) shift. -/
def toInt32 (n : Nat) : Int :=
  if n % 2 ^ 32 < 2 ^ 31 then ((n % 2 ^ 32 : Nat) : Int)
  else ((n % 2 ^ 32 : Nat) : Int) - 2 ^ 32

/-- The while loop of findField.  Only the tag-varint read is wrapped in
try/catch (a failure breaks the loop and yields absent); the length read of
a matching field and skipField run outside the try and propagate errors.
The field number is the signed 32-bit arithmetic shift tag >> 3 of the JS
source; the wire type tag & 7 only keeps the low three bits, which the
32-bit coercion never changes.  Every iteration advances the offset, so
data.length + 1 units of fuel are never exhausted. -/
def findFieldGo (data : List Nat) (targetField : Nat) :
    Nat → Nat → Except DecodeErr (Option (List Nat))
  | 0, _offset => .ok none
  | fuel + 1, offset =>
    if offset < data.length then
      match readVarint data offset with
      | .error _ => .ok none
      | .ok (tag, newOffset) =>
        let wireType := tag &&& 7
        let fieldNum := Int.shiftRight (toInt32 tag) 3
        if fieldNum == (targetField : Int) && wireType == 2 then
          match readVarint data newOffset with
          | .ok (len, contentOffset) => .ok (some ((data.drop contentOffset).take len))
          | .error e => .error e
        else
          match skipField data newOffset wireType with
          | .ok next => findFieldGo data targetField fuel next
          | .error e => .error e
    else .ok none

/-- findField from src/unnamed/part_002.  Buffer.subarray clamps to the
buffer end, as List.drop/take do. -/
def findField (data : List Nat) (targetField : Nat) : Except DecodeErr (Option (List Nat)) :=
  findFieldGo data targetField (data.length + 1) 0

/-- Little-endian base-128 varint encoder (fuelled so that it computes by
kernel reduction; the fuel argument never runs out for fuel at least n). -/
def encodeVarintGo : Nat → Nat → List Nat
  | 0, n => [n % 128]
  | fuel + 1, n => if n < 128 then [n] else (n % 128 + 128) :: encodeVarintGo fuel (n / 128)

/-- Standard varint encoding of n, the inverse of readVarint. -/
def encodeVarint (n : Nat) : List Nat := encodeVarintGo n n

/-- A protobuf field value of one of the four wire types the decoder
recognises. -/
inductive FieldValue where
  | varintVal : Nat → FieldValue
  | fixed64 : List Nat → FieldValue
  | lengthDelim : List Nat → FieldValue
  | fixed32 : List Nat → FieldValue
deriving DecidableEq

/-- The wire-type code of a field value. -/
def wireTypeOf : FieldValue → Nat
  | .varintVal _ => 0
  | .fixed64 _ => 1
  | .lengthDelim _ => 2
  | .fixed32 _ => 5

/-- Wire encoding of a field value (without its tag). -/
def encodeFieldValue : FieldValue → List Nat
  | .varintVal v => encodeVarint v
  | .fixed64 bs => bs
  | .lengthDelim bs => encodeVarint bs.length ++ bs
  | .fixed32 bs => bs

/-- A top-level protobuf field: field number and value. -/
structure PBField where
  num : Nat
  val : FieldValue
deriving DecidableEq

/-- Wire encoding of one field: tag varint followed by the value bytes. -/
def encodePBField (f : PBField) : List Nat :=
  encodeVarint (f.num * 8 + wireTypeOf f.val) ++ encodeFieldValue f.val

/-- Wire encoding of a field list. -/
def encodePBFields (fs : List PBField) : List Nat :=
  (fs.map encodePBField).flatten

/-- Well-formedness of a field value: fixed-width payloads have their
exact width.  Varint values and length-delimited contents are
unconstrained. -/
def wfFieldValue : FieldValue → Bool
  | .fixed64 bs => bs.length == 8
  | .fixed32 bs => bs.length == 4
  | _ => true

/-- Well-formedness of a field: the value is well-formed and the field
number stays below 2^28, so that its tag fits in 31 bits and passes
through the source's signed 32-bit tag arithmetic unchanged. -/
def wfPBField (f : PBField) : Bool :=
  decide (f.num < 2 ^ 28) && wfFieldValue f.val

/-- Well-formedness of a field list. -/
def wfPBFields (fs : List PBField) : Bool := fs.all wfPBField

/-- Content bytes of a length-delimited value. -/
def lenContent : FieldValue → List Nat
  | .lengthDelim bs => bs
  | _ => []

/-- The first length-delimited field with the requested number, the
reference answer for findField. -/
def firstLenField (fs : List PBField) (target : Nat) : Option (List Nat) :=
  (fs.find? (fun f => f.num == target && wireTypeOf f.val == 2)).map (fun f => lenContent f.val)

deriving instance DecidableEq for Except

/-- Separation of two successive wake-up firings of one model: the later
one happens at least a full cooldown window after the earlier one and
carries a different resetAt value. -/
def resetFireSep (p q : Int × String) : Prop :=
  RESET_TRIGGER_COOLDOWN_MS ≤ q.1 - p.1 ∧ q.2 ≠ p.2

/-- Lookup after an update of the same key. -/
theorem getKV_setKV_self {α : Type} (m : List (String × α)) (k : String) (v : α) :
    getKV (setKV m k v) k = some v := by
  simp [getKV, setKV, List.find?]

/-- Lookup after an update of a different key. -/
theorem getKV_setKV_other {α : Type} (m : List (String × α)) (k k2 : String) (v : α)
    (h : k ≠ k2) : getKV (setKV m k v) k2 = getKV m k2 := by
  have key : ∀ (l : List (String × α)),
      List.find? (fun p => p.1 == k2) (l.filter (fun p => p.1 != k)) =
        List.find? (fun p => p.1 == k2) l := by
    intro l
    induction l with
    | nil => rfl
    | cons p rest ih =>
      rw [List.filter_cons]
      by_cases hp : p.1 = k
      · have h1 : (p.1 != k) = false := by simp [hp]
        have h2 : (p.1 == k2) = false := by
          subst hp
          simpa using h
        simp only [h1, Bool.false_eq_true, if_false, ih, List.find?_cons, h2]
      · have h1 : (p.1 != k) = true := by simp [hp]
        simp only [h1, if_true, List.find?_cons]
        cases h2 : (p.1 == k2) <;> simp [ih]
  have hkv : ((k, v).1 == k2) = false := by simpa using h
  simp only [getKV, setKV, List.find?_cons, hkv, key]

/-- Claim C1, counterexample.  The claim's observation sequence for model M
with limit 100 ends with shouldTriggerOnReset returning true on the call
(100, R2) made once the cooldown has elapsed (the trigger was marked at
time 1 and the final call happens at time 600002, past the 600000 ms
cooldown) and resetAt has changed; the code returns false there, because
the previous observation was already at the limit, so no rising edge
exists and the first-observation rule no longer applies. -/
theorem reset_edge_scenario_counterexample :
    runMarkedResults emptyTriggerState
      [⟨0, "M", "R1", 80, 100⟩, ⟨1, "M", "R1", 100, 100⟩, ⟨2, "M", "R1", 100, 100⟩,
       ⟨3, "M", "R2", 100, 100⟩, ⟨600002, "M", "R2", 100, 100⟩]
      = [false, true, false, false, false]
    ∧ RESET_TRIGGER_COOLDOWN_MS ≤ 600002 - 1 := by
  decide

/-- Claim C1, amended.  Model M, limit 100, starting from the empty
watermark state: (80, R1) gives false; (100, R1) gives true and the
trigger is marked; (100, R1) gives false; (100, R2) gives false within the
cooldown window and still gives false after the cooldown has elapsed even
though resetAt changed, because the previous observation was already at
the limit; only after a below-limit observation (40, R2) does the next
(100, R2) give true. -/
theorem reset_edge_scenario :
    runMarkedResults emptyTriggerState
      [⟨0, "M", "R1", 80, 100⟩, ⟨1, "M", "R1", 100, 100⟩, ⟨2, "M", "R1", 100, 100⟩,
       ⟨3, "M", "R2", 100, 100⟩, ⟨600002, "M", "R2", 100, 100⟩, ⟨600003, "M", "R2", 40, 100⟩,
       ⟨600004, "M", "R2", 100, 100⟩]
      = [false, true, false, false, false, false, true] := by
  decide

/-- Claim C2, counterexample.  Under the mark-after-every-true discipline,
model m fires at times 1, 600002 and 1200003 with resetAt values A, B, A:
the service returns true twice for the same model with the same resetAt
value A, because only the most recently marked resetAt is remembered. -/
theorem reset_trigger_same_resetAt_counterexample :
    resetFires "m" (runMarked emptyTriggerState
      [⟨0, "m", "A", 80, 100⟩, ⟨1, "m", "A", 100, 100⟩, ⟨2, "m", "B", 50, 100⟩,
       ⟨600002, "m", "B", 100, 100⟩, ⟨600003, "m", "A", 70, 100⟩,
       ⟨1200003, "m", "A", 100, 100⟩])
      = [(1, "A"), (600002, "B"), (1200003, "A")] := by
  decide

/-- Claim C3, counterexample.  After one observation (80 of 100) the
in-memory last-observed-remaining watermark for model M is 80, but the
persisted storage only ever holds the resetAt map and the trigger-time
map, so after a restart (initialize over the persisted slots) the
remaining watermark is absent: it does not survive a restart. -/
theorem watermark_restart_counterexample :
    getKV (shouldTriggerOnReset emptyTriggerState 0 "M" "R1" 80 100).2.lastResetRemaining "M"
      = some 80
    ∧ getKV (initializeTriggerService (persistedTriggerStorage
        (shouldTriggerOnReset emptyTriggerState 0 "M" "R1" 80 100).2)).lastResetRemaining "M"
      = none := by
  decide

/-- Claim C3, amended.  Of the three per-model watermarks, the last
resetAt string and the last wall-clock trigger time are persisted whenever
markResetTriggered writes them and are restored by initialize, so they
survive a restart; the last observed remaining value is kept only in
memory and is always empty after initialize. -/
theorem watermark_persistence (st : TriggerState) (now : Int) (m r : String) :
    getKV (initializeTriggerService (persistedTriggerStorage
      (markResetTriggered st now m r))).lastResetTriggerTimestamps m = some r
    ∧ getKV (initializeTriggerService (persistedTriggerStorage
        (markResetTriggered st now m r))).lastResetTriggerAt m = some now
    ∧ (initializeTriggerService (persistedTriggerStorage
        (markResetTriggered st now m r))).lastResetRemaining = [] := by
  refine ⟨?_, ?_, rfl⟩
  · simpa [initializeTriggerService, persistedTriggerStorage, markResetTriggered] using
      getKV_setKV_self st.lastResetTriggerTimestamps m r
  · simpa [initializeTriggerService, persistedTriggerStorage, markResetTriggered] using
      getKV_setKV_self st.lastResetTriggerAt m now

/-- Every branch of shouldTriggerOnReset returns the state with only the
last-observed-remaining watermark updated. -/
theorem shouldTrigger_snd (st : TriggerState) (now : Int) (m r : String) (rem lim : Int) :
    (shouldTriggerOnReset st now m r rem lim).2 = setLastRemaining st m rem := by
  unfold shouldTriggerOnReset
  dsimp only
  repeat' split
  all_goals rfl

/-- When shouldTriggerOnReset answers true, the cooldown window since the
last recorded trigger time has fully elapsed and the stored resetAt
watermark differs from the current resetAt. -/
theorem shouldTrigger_true_guard (st : TriggerState) (now : Int) (m r : String) (rem lim : Int)
    (h : (shouldTriggerOnReset st now m r rem lim).1 = true) :
    (∀ t, getKV st.lastResetTriggerAt m = some t → RESET_TRIGGER_COOLDOWN_MS ≤ now - t)
    ∧ getKV st.lastResetTriggerTimestamps m ≠ some r := by
  by_cases hFull : lim ≤ rem
  · cases hAt : getKV st.lastResetTriggerAt m with
    | some t =>
      by_cases hcd : now - t < RESET_TRIGGER_COOLDOWN_MS
      · exfalso
        simp [shouldTriggerOnReset, hFull, hAt, hcd] at h
      · refine ⟨?_, ?_⟩
        · intro t2 ht2
          injection ht2 with h3
          subst h3
          exact Int.not_lt.mp hcd
        · intro hts
          cases hRem : getKV st.lastResetRemaining m with
          | none => simp [shouldTriggerOnReset, hFull, hAt, hcd, hRem, hts] at h
          | some lastRem => simp [shouldTriggerOnReset, hFull, hAt, hcd, hRem, hts] at h
    | none =>
      refine ⟨?_, ?_⟩
      · intro t2 ht2
        exact absurd ht2 (by simp)
      · intro hts
        cases hRem : getKV st.lastResetRemaining m with
        | none => simp [shouldTriggerOnReset, hFull, hAt, hRem, hts] at h
        | some lastRem => simp [shouldTriggerOnReset, hFull, hAt, hRem, hts] at h
  · exfalso
    simp [shouldTriggerOnReset, hFull] at h

/-- shouldTriggerOnReset never touches the trigger-time map. -/
theorem shouldTrigger_preserves_at (st : TriggerState) (now : Int) (m r : String)
    (rem lim : Int) :
    (shouldTriggerOnReset st now m r rem lim).2.lastResetTriggerAt = st.lastResetTriggerAt := by
  rw [shouldTrigger_snd]
  rfl

/-- shouldTriggerOnReset never touches the resetAt map. -/
theorem shouldTrigger_preserves_ts (st : TriggerState) (now : Int) (m r : String)
    (rem lim : Int) :
    (shouldTriggerOnReset st now m r rem lim).2.lastResetTriggerTimestamps
      = st.lastResetTriggerTimestamps := by
  rw [shouldTrigger_snd]
  rfl

/-- A trace step that fires for model m contributes its (time, resetAt)
pair to the fire list. -/
theorem resetFires_cons_pos {m : String} {x : TriggerObs × Bool} {l : List (TriggerObs × Bool)}
    (h : (x.2 && (x.1.model == m)) = true) :
    resetFires m (x :: l) = (x.1.now, x.1.resetAt) :: resetFires m l := by
  simp only [Bool.and_eq_true, beq_iff_eq] at h
  simp [resetFires, List.filterMap_cons, h.1, h.2]

/-- A trace step that does not fire for model m contributes nothing. -/
theorem resetFires_cons_neg {m : String} {x : TriggerObs × Bool} {l : List (TriggerObs × Bool)}
    (h : (x.2 && (x.1.model == m)) = false) :
    resetFires m (x :: l) = resetFires m l := by
  have h2 : ¬(x.2 = true ∧ x.1.model = m) := by
    intro hc
    rw [hc.1] at h
    simp [hc.2] at h
  simp [resetFires, List.filterMap_cons, h2]

/-- Invariant run of runMarked: when the watermark maps of model m record
exactly the optional previous firing prev, the firings of m along the
trace, with prev in front, are pairwise separated by the cooldown and by
distinct resetAt values. -/
theorem resetFires_chain (m : String) (obs : List TriggerObs) :
    ∀ (st : TriggerState) (prev : Option (Int × String)),
      getKV st.lastResetTriggerAt m = prev.map Prod.fst →
      getKV st.lastResetTriggerTimestamps m = prev.map Prod.snd →
      List.Chain' resetFireSep (prev.toList ++ resetFires m (runMarked st obs)) := by
  induction obs with
  | nil =>
    intro st prev hA hT
    cases prev with
    | none => simp [runMarked, resetFires, List.chain'_nil]
    | some p => simp [runMarked, resetFires, List.chain'_singleton]
  | cons o rest ih =>
    intro st prev hA hT
    simp only [runMarked]
    by_cases hb : (shouldTriggerOnReset st o.now o.model o.resetAt o.remaining o.limit).1 = true
    · rw [if_pos hb]
      by_cases hm : o.model = m
      · subst hm
        rw [resetFires_cons_pos (by simp [hb])]
        have h1 : getKV (markResetTriggered
            (shouldTriggerOnReset st o.now o.model o.resetAt o.remaining o.limit).2
            o.now o.model o.resetAt).lastResetTriggerAt o.model = some o.now := by
          simp [markResetTriggered, getKV_setKV_self]
        have h2 : getKV (markResetTriggered
            (shouldTriggerOnReset st o.now o.model o.resetAt o.remaining o.limit).2
            o.now o.model o.resetAt).lastResetTriggerTimestamps o.model = some o.resetAt := by
          simp [markResetTriggered, getKV_setKV_self]
        have hchain := ih _ (some (o.now, o.resetAt)) h1 h2
        have hguard := shouldTrigger_true_guard st o.now o.model o.resetAt o.remaining o.limit hb
        cases prev with
        | none => simpa using hchain
        | some p =>
          simp only [Option.toList_some, List.singleton_append] at hchain ⊢
          rw [List.chain'_cons]
          refine ⟨?_, hchain⟩
          constructor
          · exact hguard.1 p.1 (by simpa using hA)
          · intro heq
            have heq2 : p.2 = o.resetAt := by simpa using heq.symm
            apply hguard.2
            rw [hT]
            simp [heq2]
      · rw [resetFires_cons_neg (by simp [hm])]
        apply ih _ prev
        · rw [show (markResetTriggered
              (shouldTriggerOnReset st o.now o.model o.resetAt o.remaining o.limit).2
              o.now o.model o.resetAt).lastResetTriggerAt
              = setKV ((shouldTriggerOnReset st o.now o.model o.resetAt
                  o.remaining o.limit).2).lastResetTriggerAt o.model o.now from rfl]
          rw [getKV_setKV_other _ _ _ _ hm, shouldTrigger_preserves_at]
          exact hA
        · rw [show (markResetTriggered
              (shouldTriggerOnReset st o.now o.model o.resetAt o.remaining o.limit).2
              o.now o.model o.resetAt).lastResetTriggerTimestamps
              = setKV ((shouldTriggerOnReset st o.now o.model o.resetAt
                  o.remaining o.limit).2).lastResetTriggerTimestamps o.model o.resetAt from rfl]
          rw [getKV_setKV_other _ _ _ _ hm, shouldTrigger_preserves_ts]
          exact hT
    · rw [if_neg hb]
      have hb2 : (shouldTriggerOnReset st o.now o.model o.resetAt o.remaining o.limit).1
          = false := by simpa using hb
      rw [resetFires_cons_neg (by simp [hb2])]
      apply ih _ prev
      · rw [shouldTrigger_preserves_at]
        exact hA
      · rw [shouldTrigger_preserves_ts]
        exact hT

/-- Claim C2, amended.  Starting from the empty watermark state, under the
discipline that markResetTriggered(m, r) follows every true answer of
shouldTriggerOnReset(m, r, ...), successive true answers for one model are
always separated by at least the 10-minute cooldown window and carry
distinct resetAt values: the service never answers true while the
currently stored resetAt watermark equals the requested resetAt, and never
within the cooldown window of the most recent markResetTriggered.  (The
original claim's stronger reading, that true is never answered twice for
the same model with the same resetAt value anywhere in the sequence, fails
because only the most recently marked resetAt is remembered.) -/
theorem reset_trigger_fire_separation (obs : List TriggerObs) (m : String) :
    List.Chain' resetFireSep (resetFires m (runMarked emptyTriggerState obs)) := by
  have h := resetFires_chain m obs emptyTriggerState none rfl rfl
  simpa using h

/-- When every HTTP call fails with a retryable error, the endpoint loop
walks all base URLs, makes one call per URL, falls through, and remembers
the error of the last call made. -/
theorem endpointLoop_allRetry {T : Type} (f : Nat → Nat) :
    ∀ (urls : List String) (calls : Nat) (lastErr : Option (Nat × Bool)),
      endpointLoop (T := T) (fun i => CallOutcome.requestError (f i) true) urls calls lastErr
        = (none, calls + urls.length,
           if urls.isEmpty then lastErr else some (f (calls + urls.length - 1), true)) := by
  intro urls
  induction urls with
  | nil =>
    intro calls lastErr
    simp [endpointLoop]
  | cons u rest ih =>
    intro calls lastErr
    simp only [endpointLoop, if_pos]
    rw [ih (calls + 1)]
    cases rest with
    | nil => simp
    | cons v vs =>
      simp only [List.isEmpty_cons, List.length_cons, if_neg]
      have h1 : calls + 1 + (vs.length + 1) - 1 = calls + (vs.length + 1 + 1) - 1 := by omega
      have h2 : calls + 1 + (vs.length + 1) = calls + (vs.length + 1 + 1) := by omega
      simp [h1, h2]

/-- The endpoint loop makes at most one HTTP call per base URL. -/
theorem endpointLoop_calls_le {T : Type} (oracle : Nat → CallOutcome T) :
    ∀ (urls : List String) (calls : Nat) (lastErr : Option (Nat × Bool)),
      (endpointLoop oracle urls calls lastErr).2.1 ≤ calls + urls.length := by
  intro urls
  induction urls with
  | nil =>
    intro calls lastErr
    simp [endpointLoop]
  | cons u rest ih =>
    intro calls lastErr
    simp only [endpointLoop]
    cases oracle calls with
    | success v => simp
    | authError => simp
    | requestError s r =>
      cases r with
      | true =>
        simp only [if_pos]
        have := ih (calls + 1) (some (s, true))
        simp only [List.length_cons]
        omega
      | false => simp

/-- The retry loop makes at most remaining * (number of URLs) HTTP calls. -/
theorem retryRounds_calls_le {T : Type} (oracle : Nat → CallOutcome T) (urls : List String) :
    ∀ (remaining attempt calls : Nat) (lastErr : Option (Nat × Bool)) (delays : List Nat),
      (retryRounds oracle urls remaining attempt calls lastErr delays).2.1
        ≤ calls + remaining * urls.length := by
  intro remaining
  induction remaining with
  | zero =>
    intro attempt calls lastErr delays
    simp [retryRounds]
  | succ k ih =>
    intro attempt calls lastErr delays
    simp only [retryRounds]
    rcases hloop : endpointLoop oracle urls calls lastErr with ⟨res, calls2, lastErr2⟩
    have hle : calls2 ≤ calls + urls.length := by
      have := endpointLoop_calls_le oracle urls calls lastErr
      rw [hloop] at this
      exact this
    cases res with
    | some r =>
      simp only []
      calc calls2 ≤ calls + urls.length := hle
        _ ≤ calls + (k + 1) * urls.length := by
            have : urls.length ≤ (k + 1) * urls.length := by
              have := Nat.le_mul_of_pos_left urls.length (show 0 < k + 1 by omega)
              omega
            omega
    | none =>
      have := ih (attempt + 1) calls2 lastErr2
        (if 1 < attempt then delays ++ [attempt] else delays)
      simp only []
      calc (retryRounds oracle urls k (attempt + 1) calls2 lastErr2
            (if 1 < attempt then delays ++ [attempt] else delays)).2.1
          ≤ calls2 + k * urls.length := ih _ _ _ _
        _ ≤ calls + urls.length + k * urls.length := by omega
        _ = calls + (k + 1) * urls.length := by ring

/-- Rounds of the retry loop under an always-retryable-failure oracle, from
any attempt number of at least 2 on: every round sleeps, walks every URL,
and the loop finally rethrows the error of the very last call. -/
theorem retryRounds_allRetry_tail {T : Type} (f : Nat → Nat) (u : String) (rest : List String) :
    ∀ (remaining attempt calls : Nat) (lastErr : Option (Nat × Bool)) (delays : List Nat),
      2 ≤ attempt →
      retryRounds (T := T) (fun i => CallOutcome.requestError (f i) true) (u :: rest)
          remaining attempt calls lastErr delays
        = (if remaining = 0 then throwLastError lastErr
             else RetryResult.requestError (f (calls + remaining * (rest.length + 1) - 1)) true,
           calls + remaining * (rest.length + 1),
           delays ++ List.range' attempt remaining) := by
  intro remaining
  induction remaining with
  | zero =>
    intro attempt calls lastErr delays hatt
    simp [retryRounds]
  | succ k ih =>
    intro attempt calls lastErr delays hatt
    simp only [retryRounds]
    rw [if_pos (by omega : 1 < attempt)]
    rw [endpointLoop_allRetry]
    simp only [List.isEmpty_cons, List.length_cons, Bool.false_eq_true, if_false]
    rw [ih (attempt + 1) (calls + (rest.length + 1))
      (some (f (calls + (rest.length + 1) - 1), true)) (delays ++ [attempt]) (by omega)]
    cases k with
    | zero =>
      simp only [if_pos, Nat.zero_eq, throwLastError]
      have h1 : calls + (rest.length + 1) - 1 = calls + 1 * (rest.length + 1) - 1 := by omega
      have h2 : calls + (rest.length + 1) = calls + 1 * (rest.length + 1) := by omega
      simp [List.range'_succ, h1.symm, h2.symm]
    | succ j =>
      have h1 : calls + (rest.length + 1) + (j + 1) * (rest.length + 1) - 1
          = calls + (j + 1 + 1) * (rest.length + 1) - 1 := by ring_nf
      have h2 : calls + (rest.length + 1) + (j + 1) * (rest.length + 1)
          = calls + (j + 1 + 1) * (rest.length + 1) := by ring
      simp only [if_neg, Nat.succ_ne_zero]
      rw [h1, h2, List.range'_succ]
      simp [List.range'_succ]

/-- Claim C4.  If every individual HTTP call fails with a retryable
RequestError (for instance always HTTP 503), requestJson with
maxAttempts 3 performs exactly 3 x (number of configured base URLs) HTTP
calls, sleeps before attempts 2 and 3 only, and finally rethrows the last
remembered RequestError, namely the error of the final call. -/
theorem retry_exhaustion {T : Type} (f : Nat → Nat) (urls : List String) (h : urls ≠ []) :
    requestWithRetry (T := T) (fun i => CallOutcome.requestError (f i) true) urls 3
      = (RetryResult.requestError (f (3 * urls.length - 1)) true, 3 * urls.length, [2, 3]) := by
  obtain ⟨u, rest, rfl⟩ := List.exists_cons_of_ne_nil h
  show retryRounds _ _ (2 + 1) 1 0 none [] = _
  rw [retryRounds]
  rw [if_neg (by omega : ¬ 1 < 1)]
  rw [endpointLoop_allRetry]
  simp only [List.isEmpty_cons, Bool.false_eq_true, if_false, List.length_cons, Nat.zero_add]
  rw [retryRounds_allRetry_tail f u rest 2 (1 + 1)]
  · have h1 : rest.length + 1 + 2 * (rest.length + 1) - 1 = 3 * ((rest.length + 1)) - 1 := by
      omega
    have h2 : rest.length + 1 + 2 * (rest.length + 1) = 3 * (rest.length + 1) := by omega
    simp only [h1, h2, List.length_cons, List.nil_append]
    norm_num
    rfl
  · omega

/-- Witness for claim C4: with a constant-503 oracle and two base URLs,
requestWithRetry makes 6 calls, sleeps before attempts 2 and 3 and
rethrows the 503 error. -/
theorem retry_exhaustion_witness :
    requestWithRetry (T := Unit) (fun _ => CallOutcome.requestError 503 true) ["u1", "u2"] 3
      = (RetryResult.requestError 503 true, 6, [2, 3]) :=
  retry_exhaustion (fun _ => 503) ["u1", "u2"] (by decide)

/-- Claim C5.  If the first HTTP call's response carries status 401, or a
body containing the invalid_grant marker regardless of status, requestJson
makes exactly one HTTP call in total, never sleeps, and raises the auth
error to the caller: no retry round and no endpoint fallback happens. -/
theorem auth_short_circuit {T : Type} (status : Nat) (text : List Char) (parsed : Option T)
    (emptyObj : T) (oracle : Nat → CallOutcome T) (urls : List String) (maxAttempts : Nat)
    (hauth : status = 401 ∨ isInvalidGrant text = true)
    (horacle : oracle 0 = requestOnceClassify status text parsed emptyObj)
    (hurls : urls ≠ []) (hatt : 1 ≤ maxAttempts) :
    requestWithRetry oracle urls maxAttempts = (RetryResult.authError, 1, []) := by
  have hclass : requestOnceClassify status text parsed emptyObj = CallOutcome.authError := by
    rcases hauth with h | h
    · simp [requestOnceClassify, h]
    · simp [requestOnceClassify, h]
  obtain ⟨u, rest, rfl⟩ := List.exists_cons_of_ne_nil hurls
  obtain ⟨k, rfl⟩ : ∃ k, maxAttempts = k + 1 := ⟨maxAttempts - 1, by omega⟩
  show retryRounds _ _ (k + 1) 1 0 none [] = _
  rw [retryRounds]
  rw [if_neg (by omega : ¬ 1 < 1)]
  rw [show endpointLoop oracle (u :: rest) 0 none
      = (some RetryResult.authError, 1, none) from by
    simp [endpointLoop, horacle, hclass]]

/-- Witness for claim C5: a 401 response on the first call gives exactly
one HTTP call, no delays and an auth error. -/
theorem auth_short_circuit_witness :
    requestWithRetry (fun _ => requestOnceClassify 401 [] (none : Option Unit) ()) ["u"] 2
      = (RetryResult.authError, 1, []) :=
  auth_short_circuit 401 [] none () _ ["u"] 2 (Or.inl rfl) rfl (by decide) (by decide)

/-- Claim C10.  The per-call candidate base-URL list of the client always
holds exactly one URL, the one resolveCloudCodeBaseUrl picks for the
route options; a non-empty override URL wins over every route flag; and
consequently each retry attempt performs at most one HTTP call, so the
whole call makes at most maxAttempts HTTP calls and the endpoint-fallback
inner loop never reaches a second endpoint. -/
theorem single_base_url (options : Option CloudCodeRequestOptions) :
    (getRequestBaseUrls options).length = 1
    ∧ getRequestBaseUrls options
        = [resolveCloudCodeBaseUrl (options.bind CloudCodeRequestOptions.route)]
    ∧ (∀ r s, options.bind CloudCodeRequestOptions.route = some r →
        r.cloudCodeUrlOverride = some s → s ≠ "" → getRequestBaseUrls options = [s])
    ∧ (∀ (T : Type) (oracle : Nat → CallOutcome T) (maxAttempts : Nat),
        (requestWithRetry oracle (getRequestBaseUrls options) maxAttempts).2.1 ≤ maxAttempts) := by
  refine ⟨rfl, rfl, ?_, ?_⟩
  · intro r s hr hs hne
    have hse : s.isEmpty = false := by
      cases he : s.isEmpty
      · rfl
      · exact absurd ((String.isEmpty_iff s).mp he) hne
    simp [getRequestBaseUrls, hr, resolveCloudCodeBaseUrl, truthyStr, hs, hse]
  · intro T oracle maxAttempts
    have h := retryRounds_calls_le oracle (getRequestBaseUrls options) maxAttempts 1 0 none []
    simpa [getRequestBaseUrls] using h

/-- Witness for claim C10: with an override URL set, the candidate list is
exactly that URL. -/
theorem single_base_url_witness :
    getRequestBaseUrls
        (some ⟨none, none, none, some ⟨none, none, none, none, some "https://x"⟩⟩)
      = ["https://x"] :=
  (single_base_url _).2.2.1 _ "https://x" rfl rfl (by decide)

/-- Claim C6, counterexample.  At attempt 5 the claimed uncapped lower
bound for the next delay exceeds the cap: the delay before attempt 6 with
zero jitter is 4000 (the cap), while base * 2^(6-2) - 100 = 7900, so
backoff(attempt+1) >= base * 2^(attempt-1) - tolerance fails. -/
theorem backoff_counterexample :
    getBackoffDelay 6 0 = 4000
    ∧ (4000 : ℚ) < BACKOFF_BASE_MS * (2 : ℚ) ^ (4 : ℕ) - 100 := by
  constructor
  · have he : (((6 : Nat) : ℤ) - 2) = ((4 : ℕ) : ℤ) := by norm_num
    rw [getBackoffDelay, he, zpow_natCast]
    unfold BACKOFF_BASE_MS BACKOFF_MAX_MS
    norm_num [min_def]
  · unfold BACKOFF_BASE_MS
    norm_num

/-- Claim C6, amended.  The backoff delay for retry attempt n (n at least
2) equals min(base * 2^(n-2) + jitter, cap) with base 500 ms, cap 4000 ms
and jitter in [0, 100); for all such attempts and jitters the delay never
exceeds the cap, and the delay before attempt n+1 is at least
min(base * 2^(n-1), cap) minus the jitter tolerance: the original
uncapped lower bound holds only until it crosses the cap. -/
theorem backoff_bounds (attempt : Nat) (jitter jitter2 : ℚ)
    (hatt : 2 ≤ attempt) (hj0 : 0 ≤ jitter) (hj1 : jitter < 100)
    (hk0 : 0 ≤ jitter2) (hk1 : jitter2 < 100) :
    getBackoffDelay attempt jitter
        = min (BACKOFF_BASE_MS * (2 : ℚ) ^ ((attempt : ℤ) - 2) + jitter) BACKOFF_MAX_MS
    ∧ getBackoffDelay attempt jitter ≤ BACKOFF_MAX_MS
    ∧ min (BACKOFF_BASE_MS * (2 : ℚ) ^ ((attempt : ℤ) - 1)) BACKOFF_MAX_MS - 100
        ≤ getBackoffDelay (attempt + 1) jitter2 := by
  refine ⟨rfl, min_le_right _ _, ?_⟩
  have hexp : (((attempt + 1 : Nat) : ℤ) - 2) = ((attempt : ℤ) - 1) := by
    push_cast
    ring
  rw [getBackoffDelay, hexp]
  have hmono : min (BACKOFF_BASE_MS * (2 : ℚ) ^ ((attempt : ℤ) - 1)) BACKOFF_MAX_MS
      ≤ min (BACKOFF_BASE_MS * (2 : ℚ) ^ ((attempt : ℤ) - 1) + jitter2) BACKOFF_MAX_MS :=
    min_le_min (by linarith) le_rfl
  linarith

/-- Witness for claim C6 at attempt 2 with zero jitter. -/
theorem backoff_bounds_witness :
    getBackoffDelay 2 0
        = min (BACKOFF_BASE_MS * (2 : ℚ) ^ (((2 : Nat) : ℤ) - 2) + 0) BACKOFF_MAX_MS
    ∧ getBackoffDelay 2 0 ≤ BACKOFF_MAX_MS
    ∧ min (BACKOFF_BASE_MS * (2 : ℚ) ^ (((2 : Nat) : ℤ) - 1)) BACKOFF_MAX_MS - 100
        ≤ getBackoffDelay (2 + 1) 0 :=
  backoff_bounds 2 0 0 (by decide) (by decide) (by decide) (by decide) (by decide)

/-- Folding the per-line handler over a line list records exactly the
event payloads of the lines: gotEvent becomes true as soon as one payload
exists, lastData is the last successfully parsed payload, and the payload
list is appended. -/
theorem foldSSE {T : Type} (parse : List Char → Option T) :
    ∀ (lines : List (List Char)) (acc : SSEAcc T),
      lines.foldl (handleSSELine parse) acc
        = ⟨acc.gotEvent || !(dataPayloads lines).isEmpty,
           lastParsedFrom parse acc.lastData (dataPayloads lines),
           acc.payloads ++ dataPayloads lines⟩ := by
  intro lines
  induction lines with
  | nil =>
    intro acc
    cases acc
    simp [dataPayloads, lastParsedFrom]
  | cons line rest ih =>
    intro acc
    rw [List.foldl_cons]
    cases hpl : ssePayloadOf line with
    | none =>
      rw [show handleSSELine parse acc line = acc from by simp [handleSSELine, hpl]]
      rw [ih acc]
      simp [dataPayloads, List.filterMap_cons, hpl]
    | some p =>
      rw [show handleSSELine parse acc line
          = ⟨true, match parse p with | some v => some v | none => acc.lastData,
             acc.payloads ++ [p]⟩ from by simp [handleSSELine, hpl]]
      rw [ih]
      simp [dataPayloads, List.filterMap_cons, hpl, lastParsedFrom]

/-- Scanning a prefix without newline characters only moves it into the
line-in-progress accumulator. -/
theorem extractLinesGo_no_nl (pre : List Char) :
    ∀ (acc cs : List Char), (∀ c ∈ pre, c ≠ '\n') →
      extractLinesGo acc (pre ++ cs) = extractLinesGo (pre.reverse ++ acc) cs := by
  induction pre with
  | nil =>
    intro acc cs _
    simp
  | cons c pre2 ih =>
    intro acc cs hnl
    have hc : (c == '\n') = false := by
      have := hnl c (by simp)
      simpa using this
    rw [List.cons_append, extractLinesGo]
    rw [if_neg (by simp [hc])]
    rw [ih (c :: acc) cs (fun d hd => hnl d (by simp [hd]))]
    simp

/-- The leftover of a line scan contains no newline characters. -/
theorem extractLinesGo_leftover_no_nl :
    ∀ (buf acc : List Char), (∀ c ∈ acc, c ≠ '\n') →
      ∀ c ∈ (extractLinesGo acc buf).2, c ≠ '\n' := by
  intro buf
  induction buf with
  | nil =>
    intro acc hacc c hc
    rw [extractLinesGo] at hc
    exact hacc c (by simpa using hc)
  | cons b bs ih =>
    intro acc hacc c hc
    rw [extractLinesGo] at hc
    by_cases hb : b = '\n'
    · rw [if_pos (by simp [hb])] at hc
      exact ih [] (by simp) c hc
    · rw [if_neg (by simp [hb])] at hc
      refine ih (b :: acc) ?_ c hc
      intro d hd
      rcases List.mem_cons.mp hd with h | h
      · rwa [h]
      · exact hacc d h

/-- Decomposing a line scan over an append: scan the first part, then
continue scanning its leftover glued to the second part. -/
theorem extractLinesGo_append :
    ∀ (a b acc : List Char), (∀ c ∈ acc, c ≠ '\n') →
      extractLinesGo acc (a ++ b)
        = ((extractLinesGo acc a).1
             ++ (extractLinesGo [] ((extractLinesGo acc a).2 ++ b)).1,
           (extractLinesGo [] ((extractLinesGo acc a).2 ++ b)).2) := by
  intro a
  induction a with
  | nil =>
    intro b acc hacc
    have h1 : extractLinesGo ([] : List Char) (acc.reverse ++ b)
        = extractLinesGo acc b := by
      rw [extractLinesGo_no_nl acc.reverse [] b (fun c hc => hacc c (by simpa using hc))]
      simp
    show extractLinesGo acc b = _
    rw [show extractLinesGo acc ([] : List Char) = ([], acc.reverse) from rfl]
    rw [h1]
    simp
  | cons x a2 ih =>
    intro b acc hacc
    by_cases hx : x = '\n'
    · subst hx
      show extractLinesGo acc ('\n' :: (a2 ++ b)) = _
      rw [show extractLinesGo acc ('\n' :: (a2 ++ b))
          = ((acc.reverse :: (extractLinesGo [] (a2 ++ b)).1),
             (extractLinesGo [] (a2 ++ b)).2) from by
        rw [extractLinesGo, if_pos (by simp)]]
      rw [show extractLinesGo acc ('\n' :: a2)
          = ((acc.reverse :: (extractLinesGo [] a2).1), (extractLinesGo [] a2).2) from by
        rw [extractLinesGo, if_pos (by simp)]]
      rw [ih b [] (by simp)]
      simp
    · show extractLinesGo acc (x :: (a2 ++ b)) = _
      rw [show extractLinesGo acc (x :: (a2 ++ b))
          = extractLinesGo (x :: acc) (a2 ++ b) from by
        rw [extractLinesGo, if_neg (by simp [hx])]]
      rw [show extractLinesGo acc (x :: a2) = extractLinesGo (x :: acc) a2 from by
        rw [extractLinesGo, if_neg (by simp [hx])]]
      exact ih b (x :: acc) (fun d hd => by
        rcases List.mem_cons.mp hd with h | h
        · rwa [h]
        · exact hacc d h)

/-- The incremental chunk loop of requestStreamOnce computes the same
lines and leftover as one scan over the concatenated stream. -/
theorem feedChunks_foldl :
    ∀ (chunks : List (List Char)) (ls : List (List Char)) (buf : List Char),
      (∀ c ∈ buf, c ≠ '\n') →
      chunks.foldl (fun st chunk =>
          let r := extractLines (st.2 ++ chunk)
          (st.1 ++ r.1, r.2)) (ls, buf)
        = (ls ++ (extractLinesGo [] (buf ++ joinChunks chunks)).1,
           (extractLinesGo [] (buf ++ joinChunks chunks)).2) := by
  intro chunks
  induction chunks with
  | nil =>
    intro ls buf hbuf
    have h0 : extractLinesGo ([] : List Char) buf = ([], buf) := by
      have h := extractLinesGo_no_nl buf [] ([] : List Char) hbuf
      simpa [extractLinesGo] using h
    simp [joinChunks, h0]
  | cons chunk rest ih =>
    intro ls buf hbuf
    rw [List.foldl_cons]
    have hleft : ∀ c ∈ (extractLines (buf ++ chunk)).2, c ≠ '\n' :=
      extractLinesGo_leftover_no_nl (buf ++ chunk) [] (by simp)
    rw [ih _ _ hleft]
    have hdec := extractLinesGo_append (buf ++ chunk) (joinChunks rest) [] (by simp)
    rw [show buf ++ joinChunks (chunk :: rest) = (buf ++ chunk) ++ joinChunks rest from by
      simp [joinChunks]]
    rw [hdec]
    simp [extractLines, List.append_assoc]

/-- The lines the chunk loop produces are the complete lines of the
concatenated stream. -/
theorem feedChunks_lines (chunks : List (List Char)) :
    (feedChunks chunks).1 = (extractLines (joinChunks chunks)).1 := by
  unfold feedChunks
  rw [feedChunks_foldl chunks [] [] (by simp)]
  simp [extractLines]

/-- Claim C7.  If a streaming read is aborted by the timeout after data
events were already captured, requestStreamOnce returns successfully with
the last captured event's parsed payload as its data: in particular a
stream whose lines carry exactly two valid data events returns the second
event's parsed payload instead of an error. -/
theorem stream_abort_partial_success {T : Type} (parse : List Char → Option T)
    (chunks : List (List Char)) (p1 p2 : List Char) (v1 v2 : T)
    (hps : dataPayloads (feedChunks chunks).1 = [p1, p2])
    (h1 : parse p1 = some v1) (h2 : parse p2 = some v2) :
    requestStreamBody parse chunks ReadEnd.aborted = StreamOutcome.ok (some v2) [p1, p2] := by
  unfold requestStreamBody
  dsimp only
  rw [foldSSE parse (feedChunks chunks).1 ⟨false, none, []⟩]
  rw [hps]
  simp [lastParsedFrom, h1, h2]

/-- Witness for claim C7: two valid events then an abort return the second
event's parsed value. -/
theorem stream_abort_partial_success_witness :
    requestStreamBody
        (fun cs => if cs == ['1'] then some 1 else if cs == ['2'] then some 2 else none)
        ["data: 1\n".toList, "data: 2\n".toList] ReadEnd.aborted
      = StreamOutcome.ok (some 2) [['1'], ['2']] :=
  stream_abort_partial_success _ _ ['1'] ['2'] 1 2 (by decide) (by decide) (by decide)

/-- Claim C8, counterexample.  A stream with one data line whose payload
is not valid JSON still counts as an event: the call ends successfully
with absent data instead of raising the retryable no-data RequestError,
so a stream whose data lines yield no valid JSON event does produce a
successful result. -/
theorem stream_no_valid_json_counterexample :
    requestStreamBody (fun _ => (none : Option Nat)) ["data: x\n".toList] ReadEnd.done
      = StreamOutcome.ok none [['x']]
    ∧ requestStreamBody (fun _ => (none : Option Nat)) ["data: x\n".toList] ReadEnd.done
      ≠ StreamOutcome.reqError "Cloud Code stream received no data" true := by
  decide

/-- Claim C8, amended.  In stream parsing, blank lines, lines without the
data: prefix and literal DONE payloads are skipped; every other data:
payload counts as an event whether or not it parses as JSON; each payload
that does parse becomes the last-data result; and when the stream ends the
call raises the retryable no-data RequestError exactly when zero events
(parsed or not) were produced - a stream whose data lines yield no valid
JSON event but at least one data event still returns successfully, with
absent data. -/
theorem stream_done_classification {T : Type} (parse : List Char → Option T)
    (chunks : List (List Char)) :
    requestStreamBody parse chunks ReadEnd.done
      = (if (dataPayloads (extractLines (joinChunks chunks)).1).isEmpty then
           StreamOutcome.reqError "Cloud Code stream received no data" true
         else
           StreamOutcome.ok
             (lastParsedFrom parse none (dataPayloads (extractLines (joinChunks chunks)).1))
             (dataPayloads (extractLines (joinChunks chunks)).1)) := by
  unfold requestStreamBody
  dsimp only
  rw [feedChunks_lines]
  rw [foldSSE parse (extractLines (joinChunks chunks)).1 ⟨false, none, []⟩]
  cases hps : (dataPayloads (extractLines (joinChunks chunks)).1).isEmpty with
  | true =>
    have hnil : dataPayloads (extractLines (joinChunks chunks)).1 = [] := by
      simpa using hps
    simp [hnil, lastParsedFrom]
  | false =>
    simp [hps]

/-- The varint encoder ignores its fuel as long as the fuel dominates the
value. -/
theorem encodeVarintGo_congr :
    ∀ (f1 f2 n : Nat), n ≤ f1 → n ≤ f2 → encodeVarintGo f1 n = encodeVarintGo f2 n := by
  intro f1
  induction f1 with
  | zero =>
    intro f2 n h1 h2
    interval_cases n
    cases f2 with
    | zero => rfl
    | succ k => simp [encodeVarintGo]
  | succ k ih =>
    intro f2 n h1 h2
    by_cases hn : n < 128
    · cases f2 with
      | zero =>
        have : n = 0 := by omega
        subst this
        simp [encodeVarintGo]
      | succ j => simp [encodeVarintGo, hn]
    · have h128 : 128 ≤ n := by omega
      cases f2 with
      | zero => omega
      | succ j =>
        simp only [encodeVarintGo, if_neg hn]
        have hd : n / 128 < n := Nat.div_lt_self (by omega) (by omega)
        rw [ih j (n / 128) (by omega) (by omega)]

/-- Characteristic equation of the varint encoder. -/
theorem encodeVarint_eq (n : Nat) :
    encodeVarint n = if n < 128 then [n] else (n % 128 + 128) :: encodeVarint (n / 128) := by
  by_cases hn : n < 128
  · cases hni : n with
    | zero => simp [encodeVarint, encodeVarintGo, hn]
    | succ k =>
      simp only [encodeVarint, ← hni]
      rw [show encodeVarintGo n n = encodeVarintGo (k + 1) n from by rw [hni]]
      simp only [encodeVarintGo, hni]
      have hk : k + 1 < 128 := by omega
      simp [hk]
  · have h128 : 128 ≤ n := by omega
    simp only [encodeVarint, if_neg hn]
    rw [show encodeVarintGo n n = encodeVarintGo ((n - 1) + 1) n from by congr 1; omega]
    simp only [encodeVarintGo, if_neg hn]
    have hd : n / 128 < n := Nat.div_lt_self (by omega) (by omega)
    rw [encodeVarintGo_congr (n - 1) (n / 128) (n / 128) (by omega) (by omega)]

/-- Varint encodings are never empty. -/
theorem encodeVarint_length_pos (n : Nat) : 0 < (encodeVarint n).length := by
  rw [encodeVarint_eq]
  by_cases hn : n < 128
  · simp [hn]
  · simp [hn]

/-- Element lookup right after a list prefix. -/
theorem getElem?_append_head {α : Type} (pre rest : List α) (x : α) :
    (pre ++ x :: rest)[pre.length]? = some x := by
  rw [List.getElem?_append_right (le_refl pre.length)]
  simp

/-- Low 7 bits of a byte. -/
theorem byte_and_127 (b : Nat) : b &&& 127 = b % 128 := by
  rw [show (127 : Nat) = 2 ^ 7 - 1 from rfl, Nat.and_pow_two_sub_one_eq_mod]

/-- The continuation bit of a byte below 128 is clear. -/
theorem byte_and_128_lo {b : Nat} (h : b < 128) : b &&& 128 = 0 := by
  rw [show (128 : Nat) = 2 ^ 7 from rfl, Nat.and_two_pow]
  rw [Nat.testBit_lt_two_pow (by simpa using h)]
  rfl

/-- The continuation bit of a byte in [128, 256) is set. -/
theorem byte_and_128_hi {b : Nat} (h1 : 128 ≤ b) (h2 : b < 256) : b &&& 128 = 128 := by
  rw [show (128 : Nat) = 2 ^ 7 from rfl, Nat.and_two_pow]
  have ht : b.testBit 7 = true := by
    rw [Nat.testBit_to_div_mod]
    simp only [show (2 : Nat) ^ 7 = 128 from rfl, decide_eq_true_eq]
    omega
  simp [ht]

/-- Wire-type codes are below 8. -/
theorem wireTypeOf_lt_8 (v : FieldValue) : wireTypeOf v < 8 := by
  cases v <;> simp [wireTypeOf]

/-- Decoding the wire type from an encoded tag. -/
theorem tag_and_7 (num w : Nat) (h : w < 8) : (num * 8 + w) &&& 7 = w := by
  rw [show (7 : Nat) = 2 ^ 3 - 1 from rfl, Nat.and_pow_two_sub_one_eq_mod]
  omega

/-- Decoding the field number from an encoded tag: for field numbers
below 2^28 the tag is below 2^31, ToInt32 is the identity on it, and the
arithmetic shift recovers the number. -/
theorem tag_fieldNum (num w : Nat) (hw : w < 8) (hnum : num < 2 ^ 28) :
    Int.shiftRight (toInt32 (num * 8 + w)) 3 = (num : Int) := by
  have h32 : num * 8 + w < 2 ^ 32 := by omega
  have h31 : num * 8 + w < 2 ^ 31 := by omega
  unfold toInt32
  rw [Nat.mod_eq_of_lt h32, if_pos h31]
  rw [show Int.shiftRight (((num * 8 + w : Nat) : Int)) 3
      = Int.ofNat ((num * 8 + w) >>> 3) from rfl]
  rw [Nat.shiftRight_eq_div_pow]
  have hd : (num * 8 + w) / 2 ^ 3 = num := by omega
  rw [hd]
  rfl

/-- Equality tests on naturals survive the cast to integers. -/
theorem natCast_beq_natCast (a b : Nat) : ((a : Int) == (b : Int)) = (a == b) := by
  by_cases h : a = b
  · subst h
    simp
  · have h2 : (a : Int) ≠ (b : Int) := by exact_mod_cast h
    simp [h, h2]

/-- The varint read loop decodes an encoded value placed at its offset,
accumulating into the running result, provided the fuel covers the
encoding. -/
theorem readVarintGo_encode (n : Nat) :
    ∀ (pre rest : List Nat) (acc shift fuel : Nat),
      (encodeVarint n).length ≤ fuel →
      readVarintGo (pre ++ (encodeVarint n ++ rest)) fuel pre.length acc shift
        = .ok (acc + n * 2 ^ shift, pre.length + (encodeVarint n).length) := by
  induction n using Nat.strong_induction_on with
  | _ n ih =>
    intro pre rest acc shift fuel hfuel
    by_cases hn : n < 128
    · rw [encodeVarint_eq, if_pos hn] at hfuel ⊢
      obtain ⟨fu, rfl⟩ : ∃ fu, fuel = fu + 1 := ⟨fuel - 1, by simp at hfuel; omega⟩
      rw [readVarintGo]
      rw [show ([n] ++ rest) = n :: rest from rfl]
      rw [getElem?_append_head pre rest n]
      dsimp only
      rw [show (n &&& 128) = 0 from byte_and_128_lo hn]
      simp [byte_and_127, Nat.mod_eq_of_lt hn]
    · have h128 : 128 ≤ n := by omega
      rw [encodeVarint_eq, if_neg hn] at hfuel ⊢
      obtain ⟨fu, rfl⟩ : ∃ fu, fuel = fu + 1 := ⟨fuel - 1, by simp at hfuel; omega⟩
      rw [readVarintGo]
      rw [show ((n % 128 + 128) :: encodeVarint (n / 128)) ++ rest
          = (n % 128 + 128) :: (encodeVarint (n / 128) ++ rest) from rfl]
      rw [getElem?_append_head pre _ (n % 128 + 128)]
      dsimp only
      rw [show ((n % 128 + 128) &&& 128) = 128 from byte_and_128_hi (by omega) (by omega)]
      simp only [show ((128 : Nat) == 0) = false from rfl, Bool.false_eq_true, if_false]
      rw [byte_and_127]
      have hstep : pre ++ (n % 128 + 128) :: (encodeVarint (n / 128) ++ rest)
          = (pre ++ [n % 128 + 128]) ++ (encodeVarint (n / 128) ++ rest) := by
        simp
      rw [hstep]
      have hpos : pre.length + 1 = (pre ++ [n % 128 + 128]).length := by simp
      rw [hpos]
      have hd : n / 128 < n := Nat.div_lt_self (by omega) (by omega)
      rw [ih (n / 128) hd (pre ++ [n % 128 + 128]) rest
        (acc + (n % 128 + 128) % 128 * 2 ^ shift) (shift + 7) fu (by simp at hfuel; omega)]
      have harith : acc + (n % 128 + 128) % 128 * 2 ^ shift + n / 128 * 2 ^ (shift + 7)
          = acc + n * 2 ^ shift := by
        have hm : (n % 128 + 128) % 128 = n % 128 := by omega
        rw [hm]
        have hp : (2 : Nat) ^ (shift + 7) = 2 ^ shift * 128 := by
          rw [pow_add]
          norm_num
        rw [hp]
        conv_rhs => rw [← Nat.mod_add_div n 128]
        ring
      rw [harith]
      have hlen : (pre ++ [n % 128 + 128]).length + (encodeVarint (n / 128)).length
          = pre.length + ((n % 128 + 128) :: encodeVarint (n / 128)).length := by
        simp
        omega
      rw [hlen]

/-- readVarint decodes an encoded varint at its offset. -/
theorem readVarint_encode (n : Nat) (pre rest : List Nat) :
    readVarint (pre ++ (encodeVarint n ++ rest)) pre.length
      = .ok (n, pre.length + (encodeVarint n).length) := by
  unfold readVarint
  have hfuel : (encodeVarint n).length
      ≤ (pre ++ (encodeVarint n ++ rest)).length - pre.length := by
    simp
  rw [readVarintGo_encode n pre rest 0 0 _ hfuel]
  simp

/-- Reading a varint from a buffer that ends in a lone continuation byte
fails with the incomplete-varint error. -/
theorem readVarint_junk128 (pre : List Nat) :
    readVarint (pre ++ [128]) pre.length = .error .incompleteVarint := by
  unfold readVarint
  have hlen : (pre ++ [128]).length - pre.length = 1 := by simp
  rw [hlen]
  rw [readVarintGo]
  rw [show pre ++ [128] = pre ++ 128 :: [] from rfl, getElem?_append_head pre [] 128]
  dsimp only
  rw [show ((128 : Nat) &&& 128) = 128 from by decide]
  simp only [show ((128 : Nat) == 0) = false from rfl, Bool.false_eq_true, if_false]
  rw [readVarintGo]

/-- skipField jumps over one well-formed encoded field value. -/
theorem skipField_encode (v : FieldValue) (pre rest : List Nat)
    (hwf : wfFieldValue v = true) :
    skipField (pre ++ (encodeFieldValue v ++ rest)) pre.length (wireTypeOf v)
      = .ok (pre.length + (encodeFieldValue v).length) := by
  cases v with
  | varintVal k =>
    simp only [wireTypeOf, encodeFieldValue, skipField, if_pos]
    rw [readVarint_encode k pre rest]
    simp
  | fixed64 bs =>
    have h8 : bs.length = 8 := by simpa [wfFieldValue] using hwf
    simp [wireTypeOf, encodeFieldValue, skipField, h8]
  | lengthDelim bs =>
    simp only [wireTypeOf, encodeFieldValue, skipField]
    rw [show ((2 : Nat) == 0) = false from rfl, show ((2 : Nat) == 1) = false from rfl,
      show ((2 : Nat) == 2) = true from rfl]
    simp only [Bool.false_eq_true, if_false, if_true]
    rw [show (encodeVarint bs.length ++ bs) ++ rest
        = encodeVarint bs.length ++ (bs ++ rest) from by simp]
    rw [readVarint_encode bs.length pre (bs ++ rest)]
    simp only [List.length_append]
    rw [Nat.add_assoc, Nat.add_comm (encodeVarint bs.length).length bs.length]
  | fixed32 bs =>
    have h4 : bs.length = 4 := by simpa [wfFieldValue] using hwf
    simp [wireTypeOf, encodeFieldValue, skipField, h4]

/-- The scan loop of findField over a well-formed encoding followed by
optional junk (nothing, or a lone continuation byte whose tag read stops
the scan silently) returns the first matching length-delimited field. -/
theorem findFieldGo_encode :
    ∀ (fs : List PBField) (pre junk : List Nat) (target fuel : Nat),
      wfPBFields fs = true → (junk = [] ∨ junk = [128]) →
      (pre ++ (encodePBFields fs ++ junk)).length - pre.length < fuel →
      findFieldGo (pre ++ (encodePBFields fs ++ junk)) target fuel pre.length
        = .ok (firstLenField fs target) := by
  intro fs
  induction fs with
  | nil =>
    intro pre junk target fuel _ hjunk hfuel
    rw [show encodePBFields [] = [] from rfl] at hfuel ⊢
    rcases hjunk with rfl | rfl
    · obtain ⟨fu, rfl⟩ : ∃ fu, fuel = fu + 1 := ⟨fuel - 1, by omega⟩
      rw [findFieldGo]
      rw [if_neg (by simp)]
      simp [firstLenField]
    · rw [show pre ++ (([] : List Nat) ++ [128]) = pre ++ [128] from by simp] at hfuel ⊢
      obtain ⟨fu, rfl⟩ : ∃ fu, fuel = fu + 1 := ⟨fuel - 1, by omega⟩
      rw [findFieldGo]
      rw [if_pos (by simp)]
      rw [readVarint_junk128 pre]
      simp [firstLenField]
  | cons f fs2 ih =>
    obtain ⟨num, val⟩ := f
    intro pre junk target fuel hwf hjunk hfuel
    have hwfc : (num < 2 ^ 28 ∧ wfFieldValue val = true) ∧ wfPBFields fs2 = true := by
      have h := hwf
      simp only [wfPBFields, List.all_cons, Bool.and_eq_true, wfPBField,
        decide_eq_true_eq] at h
      exact ⟨h.1, h.2⟩
    have henc : encodePBFields (⟨num, val⟩ :: fs2)
        = encodeVarint (num * 8 + wireTypeOf val)
            ++ (encodeFieldValue val ++ encodePBFields fs2) := by
      simp [encodePBFields, encodePBField, List.append_assoc]
    rw [henc] at hfuel ⊢
    rw [show pre ++ ((encodeVarint (num * 8 + wireTypeOf val)
            ++ (encodeFieldValue val ++ encodePBFields fs2)) ++ junk)
        = pre ++ (encodeVarint (num * 8 + wireTypeOf val)
            ++ (encodeFieldValue val ++ (encodePBFields fs2 ++ junk))) from by
      simp [List.append_assoc]] at hfuel ⊢
    have hLpos := encodeVarint_length_pos (num * 8 + wireTypeOf val)
    obtain ⟨fu, rfl⟩ : ∃ fu, fuel = fu + 1 := ⟨fuel - 1, by omega⟩
    rw [findFieldGo]
    rw [if_pos (by simp; omega)]
    rw [readVarint_encode (num * 8 + wireTypeOf val) pre
      (encodeFieldValue val ++ (encodePBFields fs2 ++ junk))]
    dsimp only
    rw [tag_and_7 num _ (wireTypeOf_lt_8 val),
      tag_fieldNum num _ (wireTypeOf_lt_8 val) hwfc.1.1]
    rw [natCast_beq_natCast num target]
    by_cases hmatch : (num == target && wireTypeOf val == 2) = true
    · have hval : ∃ bs, val = FieldValue.lengthDelim bs := by
        cases val with
        | varintVal k => simp [wireTypeOf] at hmatch
        | fixed64 bs => simp [wireTypeOf] at hmatch
        | lengthDelim bs => exact ⟨bs, rfl⟩
        | fixed32 bs => simp [wireTypeOf] at hmatch
      obtain ⟨bs, rfl⟩ := hval
      rw [if_pos hmatch]
      rw [show pre ++ (encodeVarint (num * 8 + wireTypeOf (FieldValue.lengthDelim bs))
              ++ (encodeFieldValue (FieldValue.lengthDelim bs)
                  ++ (encodePBFields fs2 ++ junk)))
          = (pre ++ encodeVarint (num * 8 + wireTypeOf (FieldValue.lengthDelim bs)))
              ++ (encodeVarint bs.length ++ (bs ++ (encodePBFields fs2 ++ junk))) from by
        simp [encodeFieldValue, List.append_assoc]]
      rw [show pre.length + (encodeVarint (num * 8 + wireTypeOf (FieldValue.lengthDelim bs))).length
          = (pre ++ encodeVarint (num * 8 + wireTypeOf (FieldValue.lengthDelim bs))).length from by
        simp]
      rw [readVarint_encode bs.length _ (bs ++ (encodePBFields fs2 ++ junk))]
      dsimp only
      rw [show (pre ++ encodeVarint (num * 8 + wireTypeOf (FieldValue.lengthDelim bs)))
              ++ (encodeVarint bs.length ++ (bs ++ (encodePBFields fs2 ++ junk)))
          = ((pre ++ encodeVarint (num * 8 + wireTypeOf (FieldValue.lengthDelim bs)))
              ++ encodeVarint bs.length) ++ (bs ++ (encodePBFields fs2 ++ junk)) from by
        simp [List.append_assoc]]
      rw [show (pre ++ encodeVarint (num * 8 + wireTypeOf (FieldValue.lengthDelim bs))).length
              + (encodeVarint bs.length).length
          = ((pre ++ encodeVarint (num * 8 + wireTypeOf (FieldValue.lengthDelim bs)))
              ++ encodeVarint bs.length).length from by simp; omega]
      rw [List.drop_left]
      rw [List.take_left]
      have hfind : List.find? (fun g => g.num == target && wireTypeOf g.val == 2)
          (⟨num, FieldValue.lengthDelim bs⟩ :: fs2) = some ⟨num, FieldValue.lengthDelim bs⟩ :=
        List.find?_cons_of_pos _ (by exact hmatch)
      simp [firstLenField, hfind, lenContent]
    · rw [if_neg hmatch]
      rw [show pre ++ (encodeVarint (num * 8 + wireTypeOf val)
              ++ (encodeFieldValue val ++ (encodePBFields fs2 ++ junk)))
          = (pre ++ encodeVarint (num * 8 + wireTypeOf val))
              ++ (encodeFieldValue val ++ (encodePBFields fs2 ++ junk)) from by
        simp [List.append_assoc]]
      rw [show pre.length + (encodeVarint (num * 8 + wireTypeOf val)).length
          = (pre ++ encodeVarint (num * 8 + wireTypeOf val)).length from by simp]
      rw [skipField_encode val (pre ++ encodeVarint (num * 8 + wireTypeOf val))
        (encodePBFields fs2 ++ junk) hwfc.1.2]
      dsimp only
      rw [show (pre ++ encodeVarint (num * 8 + wireTypeOf val)).length
              + (encodeFieldValue val).length
          = ((pre ++ encodeVarint (num * 8 + wireTypeOf val))
              ++ encodeFieldValue val).length from by simp; omega]
      rw [show (pre ++ encodeVarint (num * 8 + wireTypeOf val))
              ++ (encodeFieldValue val ++ (encodePBFields fs2 ++ junk))
          = ((pre ++ encodeVarint (num * 8 + wireTypeOf val)) ++ encodeFieldValue val)
              ++ (encodePBFields fs2 ++ junk) from by simp [List.append_assoc]]
      have hfu : (((pre ++ encodeVarint (num * 8 + wireTypeOf val)) ++ encodeFieldValue val)
              ++ (encodePBFields fs2 ++ junk)).length
            - ((pre ++ encodeVarint (num * 8 + wireTypeOf val)) ++ encodeFieldValue val).length
          < fu := by
        simp only [List.length_append] at hfuel ⊢
        omega
      rw [ih ((pre ++ encodeVarint (num * 8 + wireTypeOf val)) ++ encodeFieldValue val)
        junk target fu hwfc.2 hjunk hfu]
      have hfind : List.find? (fun g => g.num == target && wireTypeOf g.val == 2)
          (⟨num, val⟩ :: fs2)
          = List.find? (fun g => g.num == target && wireTypeOf g.val == 2) fs2 :=
        List.find?_cons_of_neg _ (by simpa using hmatch)
      simp [firstLenField, hfind]

/-- Claim C9, counterexample.  findField does not confine raising to
malformed varints: on the buffer [0x0b], whose single tag has field
number 1 and unrecognized wire type 3, no field matches and no varint is
malformed, yet the scan raises Unknown wire type instead of returning
absent; and on [0x12], whose tag announces a matching length-delimited
field 2 but whose length varint is cut off by the end of the buffer, the
truncation raises Incomplete varint instead of stopping silently. -/
theorem findField_counterexample :
    findField [11] 2 = .error (DecodeErr.unknownWireType 3)
    ∧ findField [18] 2 = .error DecodeErr.incompleteVarint := by
  decide

/-- Claim C9, amended.  For every well-formed top-level encoding - fields
whose numbers stay below 2^28, so that their tags survive the source's
signed 32-bit tag arithmetic unchanged, and whose fixed-width payloads
have their exact width - findField returns the raw bytes of the first
length-delimited field whose field number matches, and returns absent -
without raising - when no field matches; a truncated tag varint at the
top level (modelled by a trailing lone continuation byte) silently stops
the scan rather than raising.  A malformed varint in a length or value
position raises, and so does an unrecognized wire type. -/
theorem findField_wellformed (fs : List PBField) (target : Nat) (junk : List Nat)
    (hwf : wfPBFields fs = true) (hjunk : junk = [] ∨ junk = [128]) :
    findField (encodePBFields fs ++ junk) target = .ok (firstLenField fs target) := by
  unfold findField
  have h := findFieldGo_encode fs [] junk target
    ((encodePBFields fs ++ junk).length + 1) hwf hjunk (by simp)
  simpa using h

/-- Witness for claim C9: a buffer holding a varint field 1 and a
length-delimited field 2 yields field 2's bytes. -/
theorem findField_wellformed_witness :
    findField (encodePBFields
        [⟨1, FieldValue.varintVal 300⟩, ⟨2, FieldValue.lengthDelim [9, 9, 9]⟩] ++ []) 2
      = .ok (some [9, 9, 9]) :=
  findField_wellformed [⟨1, FieldValue.varintVal 300⟩, ⟨2, FieldValue.lengthDelim [9, 9, 9]⟩]
    2 [] (by decide) (Or.inl rfl)
